import Mathlib

/-!
Verification of the dependency-scanner core (audit/dep_scan.py) against its
design document.  The Python module is embedded shallowly: every regex is
implemented as an explicit backtracking scanner over character lists with the
exact leftmost-match / lazy / greedy discipline of the Python patterns, string
manipulation follows Python string semantics, and the worklist traversal of
dependency_closure is embedded with an explicit fuel argument large enough
that exhaustion is unreachable (the same counting argument that bounds the
Python loop).  The file system is modelled as a finite map from absolute
paths (component lists) to file contents.
-/

namespace DepScan

/-- Python re ASCII whitespace class: space, tab, newline, carriage return,
form feed, vertical tab. -/
def isWs (c : Char) : Bool :=
  c = ' ' || c = '\t' || c = '\n' || c = '\r' || c = '\x0c' || c = '\x0b'

/-- Python re word character (ASCII): letters, digits, underscore. -/
def isWordChar (c : Char) : Bool :=
  ('a' ≤ c && c ≤ 'z') || ('A' ≤ c && c ≤ 'Z') || ('0' ≤ c && c ≤ '9') || c = '_'

/-- Either of the two quote characters accepted by the character class in the
source patterns (double or single quote). -/
def quoteChar (c : Char) : Bool :=
  c = '\x22' || c = '\x27'

/-- Python str.strip with no argument: drop leading and trailing whitespace. -/
def pyStrip (cs : List Char) : List Char :=
  ((cs.dropWhile isWs).reverse.dropWhile isWs).reverse

/-- Scan for the closing delimiter of a block comment: the first occurrence
of star-slash, returning the remainder after it.  Mirrors the lazy matching
of the block-comment pattern in the source. -/
def findClose : List Char → Option (List Char)
  | [] => none
  | '*' :: '/' :: rest => some rest
  | _ :: rest => findClose rest

/-- Removal of block comments, mirroring the substitution of the
slash-star .. star-slash pattern (lazy) with the empty string: at the first
opening delimiter, cut up to the nearest closing delimiter and continue after
it; an opening delimiter with no closing match is left untouched (the pattern
cannot match there, nor at any later opening).  Fuel is the length of the
text; every step consumes at least one character. -/
def stripBlockGo : Nat → List Char → List Char
  | 0, cs => cs
  | _ + 1, [] => []
  | fuel + 1, c :: rest =>
    if c = '/' && rest.head? = some '*' then
      match findClose (rest.drop 1) with
      | some rest' => stripBlockGo fuel rest'
      | none => c :: rest
    else c :: stripBlockGo fuel rest

/-- Embedding of the private block-comment stripper of the source. -/
def stripBlockComments (text : String) : String :=
  String.mk (stripBlockGo (text.data.length + 1) text.data)

/-- One line of the line-comment substitution: the pattern demands that the
two slashes stand at line start or after a whitespace character (the captured
group, which the substitution preserves); everything from the slashes to the
end of the line is dropped.  prevWs is true at line start or after
whitespace. -/
def stripLineGo : Bool → List Char → List Char
  | _, [] => []
  | prevWs, c :: rest =>
    if c = '/' && rest.head? = some '/' && prevWs then []
    else c :: stripLineGo (isWs c) rest

/-- Split a character list at every occurrence of a separator character
(Python str.split with a one-character separator). -/
def splitCharGo (sep : Char) : List Char → List Char → List (List Char)
  | acc, [] => [acc.reverse]
  | acc, c :: rest =>
    if c = sep then acc.reverse :: splitCharGo sep [] rest
    else splitCharGo sep (c :: acc) rest

/-- Rejoin lines with newlines, inverse of the split. -/
def joinLines : List (List Char) → List Char
  | [] => []
  | [l] => l
  | l :: rest => l ++ '\n' :: joinLines rest

/-- Embedding of the private line-comment stripper of the source.  The
multiline pattern is applied line by line: a caret match is the start of a
line, and a whitespace match just before a line start (the newline itself)
gives the same result because the captured character is preserved by the
substitution. -/
def stripLineComments (text : String) : String :=
  String.mk (joinLines ((splitCharGo '\n' [] text.data).map (stripLineGo true)))

/-- Embedding of strip_comments: block comments first, then line comments,
exactly as in the source. -/
def strip_comments (text : String) : String :=
  stripLineComments (stripBlockComments text)

/-- Split at the first occurrence of a character (Python str.split with
maxsplit 1; callers guard on the character being present). -/
def splitFirstAt (sep : Char) : List Char → (List Char × List Char)
  | [] => ([], [])
  | c :: rest =>
    if c = sep then ([], rest)
    else
      let p := splitFirstAt sep rest
      (c :: p.1, p.2)

/-- Split at the first occurrence of a substring, returning the pieces before
and after it, or none when the substring does not occur. -/
def splitFirstInfix (pat : List Char) : List Char → Option (List Char × List Char)
  | [] => none
  | c :: rest =>
    if pat.isPrefixOf (c :: rest) then some ([], (c :: rest).drop pat.length)
    else
      match splitFirstInfix pat rest with
      | some p => some (c :: p.1, p.2)
      | none => none

/-- Substitution of the anchored pattern type-then-whitespace by the empty
string: when the token starts with the word type followed by at least one
whitespace character, the word and the whole (greedy) whitespace run are
removed. -/
def stripTypeQualifier (token : List Char) : List Char :=
  if ("type".data).isPrefixOf token && (token.drop 4).head?.elim false isWs then
    (token.drop 4).dropWhile isWs
  else token

/-- Search for the pattern open-brace .. close-brace (greedy) inside the
clause: the match starts at the first open brace and the greedy body extends
to the last close brace after it; the group is everything between. -/
def braceInside (cs : List Char) : Option (List Char) :=
  match splitFirstInfix ['\x7b'] cs with
  | none => none
  | some p =>
    match splitFirstInfix ['\x7d'] p.2.reverse with
    | none => none
    | some q => some q.2.reverse

/-- Processing of one comma-separated token of a braced named-import list,
mirroring the token loop of parse_import_clause: skip empty tokens, strip a
leading type qualifier, map default-as-X to X, map Y-as-Z to the source name
Y, and otherwise keep the bare name. -/
def addImportToken (acc : Finset String) (part : List Char) : Finset String :=
  let token := pyStrip part
  if token.isEmpty then acc
  else
    let token := stripTypeQualifier token
    if ("default as ".data).isPrefixOf token then
      insert (String.mk (pyStrip (token.drop ("default as ".data).length))) acc
    else
      let token :=
        match splitFirstInfix (" as ".data) token with
        | some p => pyStrip p.1
        | none => token
      if token.isEmpty then acc else insert (String.mk token) acc

/-- Tail of parse_import_clause after the default-plus-named pre-split:
the bare default form, then the braced-list search with the token loop.
imported carries what the pre-split contributed. -/
def parseClauseTail (imported : Finset String) (raw2 : List Char) : Option (Finset String) :=
  if ¬ raw2.contains '\x7b' && ¬ raw2.isEmpty && ¬ (raw2.head? = some '*') then
    some (insert "default" imported)
  else
    match braceInside raw2 with
    | none => if imported = ∅ then none else some imported
    | some inside =>
      let result := (splitCharGo ',' [] inside).foldl addImportToken imported
      if result = ∅ then none else some result

/-- Embedding of parse_import_clause.  The comma-and-brace test reproduces
the default-plus-named pre-split of the source, including its behaviour on
braced lists whose braces contain a comma. -/
def parse_import_clause (clause : String) : Option (Finset String) :=
  let raw := pyStrip clause.data
  if raw.isEmpty then none
  else if raw.head? = some '*' then some {"*"}
  else if raw.contains ',' && raw.contains '\x7b' then
    let p := splitFirstAt ',' raw
    parseClauseTail (if (pyStrip p.1).isEmpty then ∅ else {"default"}) (pyStrip p.2)
  else parseClauseTail ∅ raw

/-!
Scanners for the four source patterns.  Each one implements the exact
backtracking discipline of the Python pattern: greedy whitespace runs are
tried longest first, the optional type group is tried with the group first,
and the lazy clause group is tried shortest first.  Whenever a greedy
whitespace run is followed by a non-whitespace literal, trying shorter runs
cannot succeed, so the deterministic skip of the whole run is used (noted at
each site).
-/

/-- Tail of the import pattern after the clause: one-or-more whitespace, the
word from, one-or-more whitespace, a quote, a nonempty run of non-quote
characters (the source group, greedy), and a quote.  All steps here are
deterministic: each greedy run is followed by a character that cannot extend
it. -/
def matchFromTail (cs : List Char) : Option (String × List Char) :=
  let w1 := cs.takeWhile isWs
  if w1.isEmpty then none
  else
    let cs1 := cs.dropWhile isWs
    if ("from".data).isPrefixOf cs1 then
      let cs2 := cs1.drop 4
      let w2 := cs2.takeWhile isWs
      if w2.isEmpty then none
      else
        match cs2.dropWhile isWs with
        | [] => none
        | q :: cs4 =>
          if quoteChar q then
            let srcRun := cs4.takeWhile (fun c => ¬ quoteChar c)
            if srcRun.isEmpty then none
            else
              match cs4.dropWhile (fun c => ¬ quoteChar c) with
              | [] => none
              | _ :: cs6 => some (String.mk srcRun, cs6)
          else none
    else none

/-- Lazy clause search: the clause group accepts any characters, shortest
first, so the match point is the first position whose remainder matches the
from-tail.  Returns the clause, the source group and the remainder after the
whole match. -/
def findClause : List Char → List Char → Option (String × String × List Char)
  | acc, cs =>
    match matchFromTail cs with
    | some p => some (String.mk acc.reverse, p.1, p.2)
    | none =>
      match cs with
      | [] => none
      | c :: cs' => findClause (c :: acc) cs'

/-- Backtracking over a greedy one-or-more whitespace run followed by the
lazy clause: the run length is tried from the maximum down to one (the
clause may itself begin with whitespace, so shorter runs can succeed where
longer ones fail). -/
def tryWs (cs : List Char) : Nat → Option (String × String × List Char)
  | 0 => none
  | k + 1 =>
    match findClause [] (cs.drop (k + 1)) with
    | some r => some r
    | none => tryWs cs k

/-- Backtracking over the first whitespace run of the import pattern (tried
longest first); at each position the optional type group is tried with the
group present first, then absent, exactly as the engine treats an optional
group. -/
def tryImportA (cs : List Char) : Nat → Option (Bool × String × String × List Char)
  | 0 => none
  | a + 1 =>
    let csA := cs.drop (a + 1)
    let tyBranch :=
      if ("type".data).isPrefixOf csA then
        let cs2 := csA.drop 4
        let w2 := (cs2.takeWhile isWs).length
        if w2 = 0 then none
        else
          match tryWs cs2 w2 with
          | some (cl, src, rest) => some (true, cl, src, rest)
          | none => none
      else none
    match tyBranch with
    | some x => some x
    | none =>
      match findClause [] csA with
      | some (cl, src, rest) => some (false, cl, src, rest)
      | none => tryImportA cs a

/-- Match of the import-from pattern immediately after the word import:
requires at least one whitespace character, then delegates to the
backtracking search. -/
def importTail (cs : List Char) : Option (Bool × String × String × List Char) :=
  let w := (cs.takeWhile isWs).length
  if w = 0 then none else tryImportA cs w

/-- Scan of the whole text for the import-from pattern, leftmost match
first, continuing after each match (finditer semantics).  prevWord tracks
whether the previous character is a word character, for the word-boundary
assertion before import.  Fuel is the text length plus one; every step
consumes at least one character.  After a match the previous character is a
quote, never a word character. -/
def scanImportFrom : Nat → Bool → List Char → List (Bool × String × String)
  | 0, _, _ => []
  | _ + 1, _, [] => []
  | fuel + 1, prevWord, c :: rest =>
    if ¬ prevWord && ("import".data).isPrefixOf (c :: rest) then
      match importTail ((c :: rest).drop 6) with
      | some (ty, cl, src, rest') => (ty, cl, src) :: scanImportFrom fuel false rest'
      | none => scanImportFrom fuel (isWordChar c) rest
    else scanImportFrom fuel (isWordChar c) rest

/-- Tail of the bare side-effect import pattern after the word import:
whitespace, quoted source, then greedy optional whitespace and an optional
semicolon (which only extend the matched span). -/
def sideTail (cs : List Char) : Option (String × List Char) :=
  let w := cs.takeWhile isWs
  if w.isEmpty then none
  else
    match cs.dropWhile isWs with
    | [] => none
    | q :: cs2 =>
      if quoteChar q then
        let srcRun := cs2.takeWhile (fun c => ¬ quoteChar c)
        if srcRun.isEmpty then none
        else
          match cs2.dropWhile (fun c => ¬ quoteChar c) with
          | [] => none
          | _ :: cs4 =>
            let cs5 := cs4.dropWhile isWs
            let rest := if cs5.head? = some ';' then cs5.drop 1 else cs5
            some (String.mk srcRun, rest)
      else none

/-- Scan of the whole text for the side-effect import pattern (finditer
semantics, word boundary before import). -/
def scanImportSide : Nat → Bool → List Char → List String
  | 0, _, _ => []
  | _ + 1, _, [] => []
  | fuel + 1, prevWord, c :: rest =>
    if ¬ prevWord && ("import".data).isPrefixOf (c :: rest) then
      match sideTail ((c :: rest).drop 6) with
      | some (src, rest') => src :: scanImportSide fuel false rest'
      | none => scanImportSide fuel (isWordChar c) rest
    else scanImportSide fuel (isWordChar c) rest

/-- Embedding of the ImportEdge dataclass. -/
structure ImportEdge where
  source : String
  imported : Option (Finset String)
  type_only : Bool
deriving DecidableEq

/-- Deduplication with dict insertion-order semantics: since the dict key is
the whole edge triple, writing an edge again changes nothing, so the result
keeps the first occurrence of every distinct edge, in order. -/
def pyDedup (seen : List ImportEdge) : List ImportEdge → List ImportEdge
  | [] => []
  | e :: rest => if seen.contains e then pyDedup seen rest else e :: pyDedup (e :: seen) rest

/-- Embedding of parse_imports, acting on file text (the source function
reads the file at a path and parses the text; the read is factored out so
that the parser is a pure function of the text, matching the memoized
per-file contract).  Both patterns are run over the stripped text and the
collected edges are deduplicated. -/
def parse_imports (text : String) : List ImportEdge :=
  let t := (strip_comments text).data
  let fromEdges := (scanImportFrom (t.length + 1) false t).map
    (fun m => ImportEdge.mk m.2.2 (parse_import_clause m.2.1) m.1)
  let sideEdges := (scanImportSide (t.length + 1) false t).map
    (fun src => ImportEdge.mk src none false)
  pyDedup [] (fromEdges ++ sideEdges)

/-- Tail of the named re-export pattern after the opening brace: optional
whitespace (greedy, folded into the lazy names group boundary), the lazy
names group, optional whitespace, the closing brace, optional whitespace,
the word from, whitespace, and the quoted source.  namesScanGo scans for the
first position whose remainder matches the closing tail. -/
def closeTail (cs : List Char) : Option (String × List Char) :=
  match cs.dropWhile isWs with
  | '\x7d' :: cs2 =>
    let cs3 := cs2.dropWhile isWs
    if ("from".data).isPrefixOf cs3 then
      let cs4 := cs3.drop 4
      let w4 := cs4.takeWhile isWs
      if w4.isEmpty then none
      else
        match cs4.dropWhile isWs with
        | [] => none
        | q :: cs5 =>
          if quoteChar q then
            let srcRun := cs5.takeWhile (fun c => ¬ quoteChar c)
            if srcRun.isEmpty then none
            else
              match cs5.dropWhile (fun c => ¬ quoteChar c) with
              | [] => none
              | _ :: cs7 => some (String.mk srcRun, cs7)
          else none
    else none
  | _ => none

/-- Lazy scan for the names group of the named re-export pattern. -/
def namesScanGo : List Char → List Char → Option (String × String × List Char)
  | acc, cs =>
    match closeTail cs with
    | some p => some (String.mk acc.reverse, p.1, p.2)
    | none =>
      match cs with
      | [] => none
      | c :: cs' => namesScanGo (c :: acc) cs'

/-- Names scan after the opening brace: the greedy leading whitespace run is
consumed first (trying shorter runs gives the same answer because the lazy
group absorbs whitespace), then the lazy scan runs. -/
def namesScan (cs : List Char) : Option (String × String × List Char) :=
  namesScanGo [] (cs.dropWhile isWs)

/-- Match of the named re-export pattern after the word export: whitespace,
an optional type group (tried with the group first), the opening brace and
the names tail.  The whitespace runs before the type word and the brace are
each followed by a non-whitespace character in every successful match, so
only the full run needs trying. -/
def exportNamedTail (cs : List Char) : Option (Bool × String × String × List Char) :=
  let w := cs.takeWhile isWs
  if w.isEmpty then none
  else
    let cs1 := cs.dropWhile isWs
    let tyBranch :=
      if ("type".data).isPrefixOf cs1 then
        let cs2 := cs1.drop 4
        let w2 := cs2.takeWhile isWs
        if w2.isEmpty then none
        else
          match cs2.dropWhile isWs with
          | '\x7b' :: cs4 =>
            match namesScan cs4 with
            | some (names, src, rest) => some (true, names, src, rest)
            | none => none
          | _ => none
      else none
    match tyBranch with
    | some x => some x
    | none =>
      match cs1 with
      | '\x7b' :: cs4 =>
        match namesScan cs4 with
        | some (names, src, rest) => some (false, names, src, rest)
        | none => none
      | _ => none

/-- Scan of the whole text for the named re-export pattern (finditer
semantics, word boundary before export). -/
def scanExportNamed : Nat → Bool → List Char → List (Bool × String × String)
  | 0, _, _ => []
  | _ + 1, _, [] => []
  | fuel + 1, prevWord, c :: rest =>
    if ¬ prevWord && ("export".data).isPrefixOf (c :: rest) then
      match exportNamedTail ((c :: rest).drop 6) with
      | some (ty, names, src, rest') => (ty, names, src) :: scanExportNamed fuel false rest'
      | none => scanExportNamed fuel (isWordChar c) rest
    else scanExportNamed fuel (isWordChar c) rest

/-- Tail of the wildcard re-export pattern after the word export:
whitespace, a star, whitespace, the word from, whitespace and the quoted
source; every greedy run is followed by a non-whitespace character, so the
match is deterministic. -/
def exportStarTail (cs : List Char) : Option (String × List Char) :=
  let w := cs.takeWhile isWs
  if w.isEmpty then none
  else
    match cs.dropWhile isWs with
    | '*' :: cs2 =>
      let w2 := cs2.takeWhile isWs
      if w2.isEmpty then none
      else
        let cs3 := cs2.dropWhile isWs
        if ("from".data).isPrefixOf cs3 then
          let cs4 := cs3.drop 4
          let w4 := cs4.takeWhile isWs
          if w4.isEmpty then none
          else
            match cs4.dropWhile isWs with
            | [] => none
            | q :: cs5 =>
              if quoteChar q then
                let srcRun := cs5.takeWhile (fun c => ¬ quoteChar c)
                if srcRun.isEmpty then none
                else
                  match cs5.dropWhile (fun c => ¬ quoteChar c) with
                  | [] => none
                  | _ :: cs7 => some (String.mk srcRun, cs7)
              else none
        else none
    | _ => none

/-- Scan of the whole text for the wildcard re-export pattern. -/
def scanExportStar : Nat → Bool → List Char → List String
  | 0, _, _ => []
  | _ + 1, _, [] => []
  | fuel + 1, prevWord, c :: rest =>
    if ¬ prevWord && ("export".data).isPrefixOf (c :: rest) then
      match exportStarTail ((c :: rest).drop 6) with
      | some (src, rest') => src :: scanExportStar fuel false rest'
      | none => scanExportStar fuel (isWordChar c) rest
    else scanExportStar fuel (isWordChar c) rest

/-- Insertion into a Python set modelled as a duplicate-free list in
first-insertion order.  Every consumer of these lists is insensitive to
their order (membership tests, unions, and iteration that feeds a sorted
set), so the list model is faithful to the set. -/
def pyInsert (x : String) (l : List String) : List String :=
  if l.contains x then l else l ++ [x]

/-- Embedding of the ExportMap dataclass.  The by_name mapping is an
association list in dict insertion order; the spec sets are duplicate-free
lists as in pyInsert. -/
structure ExportMap where
  by_name : List (String × List String)
  stars : List String
deriving DecidableEq

/-- Upsert into the by_name association list (dict setdefault followed by a
set add). -/
def addByName : List (String × List String) → String → String → List (String × List String)
  | [], name, src => [(name, [src])]
  | kv :: rest, name, src =>
    if kv.1 = name then (kv.1, pyInsert src kv.2) :: rest
    else kv :: addByName rest name src

/-- Exported-name extraction for one comma-separated token of a named
re-export list: skip empty tokens, strip a leading type qualifier,
default-as-X exports X, Y-as-Z exports the public name Z, a bare name
exports itself; an empty result contributes nothing. -/
def exportTokenName (part : List Char) : Option String :=
  let token0 := pyStrip part
  if token0.isEmpty then none
  else
    let token := stripTypeQualifier token0
    let name :=
      if ("default as ".data).isPrefixOf token then
        pyStrip (token.drop ("default as ".data).length)
      else
        match splitFirstInfix (" as ".data) token with
        | some p => pyStrip p.2
        | none => token
    if name.isEmpty then none else some (String.mk name)

/-- Accumulation of the by_name mapping over the scanned named re-export
matches; matches carrying the type group are skipped entirely. -/
def buildByName (ms : List (Bool × String × String)) : List (String × List String) :=
  ms.foldl
    (fun m t =>
      if t.1 then m
      else
        (splitCharGo ',' [] t.2.1.data).foldl
          (fun m2 part =>
            match exportTokenName part with
            | some name => addByName m2 name t.2.2
            | none => m2)
          m)
    []

/-- Embedding of parse_export_map, acting on file text. -/
def parse_export_map (text : String) : ExportMap :=
  let t := (strip_comments text).data
  ExportMap.mk
    (buildByName (scanExportNamed (t.length + 1) false t))
    ((scanExportStar (t.length + 1) false t).foldl (fun s src => pyInsert src s) [])

/-!
File-system model and module resolution.  A path is its list of components
from the file-system root; the tree is a finite map from paths to file
contents.  Only regular files are recorded; existence of a path as a file is
membership in the map, matching the exists-and-is-file checks of the source.
-/

/-- Absolute path, as its list of components. -/
abbrev FsPath := List String

/-- Modelled source tree: a finite map from absolute paths to contents. -/
structure FS where
  files : List (FsPath × String)

/-- Existence as a regular file. -/
def isFile (fs : FS) (p : FsPath) : Bool :=
  fs.files.any (fun f => f.1 == p)

/-- Embedding of read_text: contents of the file, empty on any failure
(missing path), matching the catch-all of the source. -/
def read_text (fs : FS) (p : FsPath) : String :=
  ((fs.files.find? (fun f => f.1 == p)).map (fun f => f.2)).getD ""

/-- Lexical path normalization, the effect of resolve on an absolute,
symlink-free path: a parent component pops the previous component (at the
root it is dropped), every other component is appended.  Single-dot
components are already dropped when a path is parsed, as in the path
library of the source language. -/
def normSegs (segs : List String) : FsPath :=
  segs.foldl (fun acc c => if c = ".." then acc.dropLast else acc ++ [c]) []

/-- Parse a specifier into path components: split on slashes, drop empty
and single-dot components (path parsing), keep parent components. -/
def parseSpec (s : String) : List String :=
  ((splitCharGo '/' [] s.data).map String.mk).filter (fun c => ¬ (c = "" || c = "."))

/-- Candidate extensions, in the fixed order of the source. -/
def exts : List String := [".ts", ".tsx", ".js", ".jsx"]

/-- Appending an extension to the textual form of a path: it lands on the
last component. -/
def appendExt : FsPath → String → FsPath
  | [], ext => [ext]
  | [last], ext => [last ++ ext]
  | c :: rest, ext => c :: appendExt rest ext

/-- Base path of an eligible specifier: the alias prefix is substituted by
the src directory under the root (no normalization in the source on this
branch), a relative specifier is joined to the directory of the current
file and normalized. -/
def specBase (root : FsPath) (current_file : FsPath) (spec : String) : FsPath :=
  if ("@/".data).isPrefixOf spec.data then root ++ ["src"] ++ parseSpec (String.mk (spec.data.drop 2))
  else normSegs (current_file.dropLast ++ parseSpec spec)

/-- Embedding of resolve_import: ineligible specifiers are unresolved;
otherwise the literal path, the path with each extension, and the index
files are probed in order. -/
def resolve_import (fs : FS) (root : FsPath) (current_file : FsPath) (spec : String) :
    Option FsPath :=
  if spec.data.isEmpty then none
  else if ¬ (("./".data).isPrefixOf spec.data || ("../".data).isPrefixOf spec.data
      || ("@/".data).isPrefixOf spec.data) then none
  else
    let base := specBase root current_file spec
    if isFile fs base then some base
    else
      match (exts.map (appendExt base)).find? (fun c => isFile fs c) with
      | some c => some c
      | none => (exts.map (fun e => base ++ ["index" ++ e])).find? (fun c => isFile fs c)

/-!
Closure engine.  The Python worklist is a list used as a stack: items are
appended at the end and popped from the end.  The model keeps the stack
reversed (push is cons, pop is head), which realizes the same
last-in-first-out discipline item for item.  The follow set of a visited
barrel is accumulated as a duplicate-free list and sorted before being
pushed, as in the source.
-/

/-- Union of a Python set (duplicate-free list) with a list of members. -/
def pyUnionL (acc : List String) (l : List String) : List String :=
  l.foldl (fun a x => pyInsert x a) acc

/-- Truthiness of the optional requested-bindings set: false for the absent
value and for the empty set (a nonempty set has positive size). -/
def requestedTruthy : Option (Finset String) → Bool
  | none => false
  | some s => decide (0 < s.card)

/-- Barrel-following step of the closure engine: with a namespace or
default request every wildcard specifier and every by-name specifier is
followed; otherwise only the specifiers of the requested names, falling
back to the wildcard specifiers when no requested name is found.  Iterating
the by-name list and testing membership in the requested set yields the
same union as iterating the requested names and looking each one up, since
keys are unique. -/
def followSpecs (em : ExportMap) (requested : Finset String) : List String :=
  if "*" ∈ requested || "default" ∈ requested then
    em.by_name.foldl (fun a kv => pyUnionL a kv.2) (pyUnionL [] em.stars)
  else
    let f := em.by_name.foldl (fun a kv => if kv.1 ∈ requested then pyUnionL a kv.2 else a) []
    if f.isEmpty && ¬ em.stars.isEmpty then pyUnionL [] em.stars else f

/-- Code-point comparison of character lists, the string comparison used by
sorted in the source language. -/
def charListLt : List Char → List Char → Bool
  | [], [] => false
  | [], _ :: _ => true
  | _ :: _, [] => false
  | a :: as, b :: bs =>
    if a.toNat < b.toNat then true
    else if b.toNat < a.toNat then false
    else charListLt as bs

/-- Strict string comparison by code points. -/
def strLt (a b : String) : Bool := charListLt a.data b.data

/-- Ordered insertion for the sort of the follow set. -/
def orderedIns (x : String) : List String → List String
  | [] => [x]
  | y :: ys => if strLt x y then x :: y :: ys else y :: orderedIns x ys

/-- Ascending sort by code points (insertion sort); on the duplicate-free
follow set this is exactly sorted of the source. -/
def sortStrs (l : List String) : List String := l.foldr orderedIns []

/-- Eligibility of a specifier for local resolution: it must begin with one
of the two relative prefixes or the alias prefix. -/
def eligibleSpec (spec : String) : Bool :=
  ("./".data).isPrefixOf spec.data || ("../".data).isPrefixOf spec.data ||
    ("@/".data).isPrefixOf spec.data

/-- Candidate list in the words of the design document: the literal path,
then the path with each candidate extension appended in the fixed order,
then the index file under the path with each extension in the same order;
resolution returns the first existing candidate. -/
def resolutionCandidates (root current_file : FsPath) (spec : String) : List FsPath :=
  let base := specBase root current_file spec
  base :: (exts.map (appendExt base) ++ exts.map (fun e => base ++ ["index" ++ e]))

/-- Push of one followed re-export specifier: resolved targets enter the
worklist with the requested bindings reset to the absent value, unresolved
ones are dropped. -/
def pushResolved (fs : FS) (root : FsPath) (path : FsPath)
    (q : List (FsPath × Option (Finset String))) (spec : String) :
    List (FsPath × Option (Finset String)) :=
  match resolve_import fs root path spec with
  | some r => (r, none) :: q
  | none => q

/-- Push of one own import edge: compile-time-only edges are skipped,
resolved targets enter the worklist with the edge's requested bindings,
unresolved ones are dropped. -/
def pushEdge (fs : FS) (root : FsPath) (path : FsPath)
    (q : List (FsPath × Option (Finset String))) (e : ImportEdge) :
    List (FsPath × Option (Finset String)) :=
  if e.type_only then q
  else
    match resolve_import fs root path e.source with
    | some r => (r, e.imported) :: q
    | none => q

/-- One worklist loop of dependency_closure: pop, skip if visited, mark
visited, stop past the cap, push the barrel-following targets (sorted,
requested reset to the absent value) and then the non-type-only own import
edges.  Fuel only bounds the iteration count; the closure entry point
passes a fuel value that the loop can never exhaust (see
closureLoop_fuel_irrelevant and dependency_closure_fuel_stable). -/
def closureLoop (fs : FS) (root : FsPath) (maxFiles : Nat) :
    Nat → Finset FsPath → List (FsPath × Option (Finset String)) → Finset FsPath
  | 0, visited, _ => visited
  | _ + 1, visited, [] => visited
  | fuel + 1, visited, (path, requested) :: queue =>
    if path ∈ visited then closureLoop fs root maxFiles fuel visited queue
    else
      let visited' := insert path visited
      if maxFiles < visited'.card then visited'
      else
        let queue1 :=
          if requestedTruthy requested then
            (sortStrs (followSpecs (parse_export_map (read_text fs path))
                (requested.getD ∅))).foldl (pushResolved fs root path) queue
          else queue
        let queue2 :=
          (parse_imports (read_text fs path)).foldl (pushEdge fs root path) queue1
        closureLoop fs root maxFiles fuel visited' queue2

/-- Bound on the number of worklist pushes one visit of a file can cause:
its import-edge count plus the wildcard-specifier count plus the total
by-name specifier count (every follow set is a union of subsets of
these). -/
def filePushBound (t : String) : Nat :=
  (parse_imports t).length + (parse_export_map t).stars.length +
    (parse_export_map t).by_name.foldl (fun n kv => n + kv.2.length) 0

/-- Largest per-file push bound over the tree. -/
def maxPush (fs : FS) : Nat :=
  fs.files.foldl (fun m f => max m (filePushBound f.2)) 0

/-- Fuel that the loop can never exhaust: the initial queue plus one full
round of pushes for every visit the cap admits. -/
def closureFuel (fs : FS) (entries : List FsPath) (maxFiles : Nat) : Nat :=
  entries.length + (maxFiles + 1) * (maxPush fs + 1) + 1

/-- Embedding of dependency_closure: seed the stack with the existing entry
files (normalized, requested absent), then run the worklist. -/
def dependency_closure (fs : FS) (root : FsPath) (entry_points : List FsPath)
    (max_files : Nat := 600) : Finset FsPath :=
  let queue := entry_points.foldl
    (fun q ep => if isFile fs ep then (normSegs ep, none) :: q else q) []
  closureLoop fs root max_files (closureFuel fs entry_points max_files) ∅ queue

/-- Three-file import chain for the cap claims. -/
def fsC2 : FS := FS.mk
  [ (["r", "a.ts"], "import \x7b b \x7d from \x22./b\x22;"),
    (["r", "b.ts"], "import \x7b c \x7d from \x22./c\x22;"),
    (["r", "c.ts"], "export const c = 1;") ]

/-- Barrel fixture: two entries (named and namespace import of the barrel),
a barrel re-exporting Foo from x and Bar from y, and a default-importing
entry. -/
def fsC4 : FS := FS.mk
  [ (["r", "e1.ts"], "import \x7b Foo \x7d from \x22./barrel\x22;"),
    (["r", "e2.ts"], "import * as NS from \x22./barrel\x22;"),
    (["r", "e4.ts"], "import Foo from \x22./barrel\x22;"),
    (["r", "barrel.ts"],
      "export \x7b Foo \x7d from \x22./x\x22;\nexport \x7b Bar \x7d from \x22./y\x22;"),
    (["r", "x.ts"], "export const Foo = 1;"),
    (["r", "y.ts"], "export const Bar = 1;") ]

/-- Wildcard-only barrel fixture for the fallback claim. -/
def fsC7 : FS := FS.mk
  [ (["r", "e3.ts"], "import \x7b Something \x7d from \x22./barrel2\x22;"),
    (["r", "barrel2.ts"], "export * from \x22./z\x22;"),
    (["r", "z.ts"], "export const z = 1;") ]

/-- Fixture with a type-only and a plain import from one entry. -/
def fsC8 : FS := FS.mk
  [ (["r", "e.ts"],
      "import type \x7b A \x7d from \x22./a\x22;\nimport \x7b B \x7d from \x22./b\x22;"),
    (["r", "a.ts"], "export const A = 1;"),
    (["r", "b.ts"], "export const B = 1;") ]

/-- Two files importing each other and nothing else. -/
def fsC9 : FS := FS.mk
  [ (["r", "a.ts"], "import \x7b x \x7d from \x22./b\x22;"),
    (["r", "b.ts"], "import \x7b y \x7d from \x22./a\x22;") ]

/-- One real file that lives outside the declared root, which itself names
no existing directory. -/
def fsC5 : FS := FS.mk [ (["elsewhere", "e.ts"], "export const e = 1;") ]

/-- Equality of a computed finite set with an enumerated one, provable by
two kernel-checkable facts: the enumerated elements all belong to the
computed set, and the computed set is no larger. -/
theorem finsetEqOfSubsetCard {α : Type} [DecidableEq α] {s t : Finset α}
    (h1 : t ⊆ s) (h2 : s.card ≤ t.card) : s = t :=
  (Finset.eq_of_subset_of_card_le h1 h2).symm

/-- Variant of finsetEqOfSubsetCard for optional sets. -/
theorem optFinsetEqSome {α : Type} [DecidableEq α] {o : Option (Finset α)} {t : Finset α}
    (h1 : o.isSome = true) (h2 : t ⊆ o.getD ∅) (h3 : (o.getD ∅).card ≤ t.card) :
    o = some t := by
  cases o with
  | none => exact Bool.noConfusion h1
  | some s =>
    simp only [Option.getD_some] at h2 h3
    exact congrArg some (finsetEqOfSubsetCard h2 h3)

/-!
Sanity checks: concrete evaluations of the embedded functions, matching
hand-traces of the source (and, where they exist, the repository's own unit
tests).
-/

example : strip_comments "a /* b */c" = "a c" := by decide

example : strip_comments "// x\nkeep" = "\nkeep" := by decide

example : strip_comments "a//b" = "a//b" := by decide

example : strip_comments "t; // b" = "t; " := by decide

example : strip_comments "a/*x\ny*/b" = "ab" := by decide

example : parse_import_clause "Foo" = some {"default"} := by decide

example : parse_import_clause "{ Bar }" = some {"Bar"} := by decide

example : parse_import_clause "* as React" = some {"*"} := by decide

example : parse_import_clause "Foo, { Bar as Baz }" = some {"default", "Bar"} :=
  optFinsetEqSome (by decide) (by decide) (by decide)

example : parse_import_clause "{ default as X }" = some {"X"} := by decide

example : parse_import_clause "{ A, B }" = some {"default"} := by decide

example : parse_import_clause "{ type B }" = some {"B"} := by decide

example : parse_import_clause "{ C as D }" = some {"C"} := by decide

example : parse_import_clause "" = none := by decide

example : parse_import_clause "{}" = none := by decide

example : scanImportFrom 100 false ("import { A } from \x22./a\x22;".data)
    = [(false, "{ A }", "./a")] := by decide

example : scanImportFrom 100 false ("import type { A } from \x22./a\x22;".data)
    = [(true, "{ A }", "./a")] := by decide

example : scanImportFrom 100 false ("reimport { A } from \x22./a\x22;".data) = [] := by decide

example : scanImportFrom 100 false ("import * as NS from \x27./b\x27".data)
    = [(false, "* as NS", "./b")] := by decide

example : scanImportFrom 60 false ("import  from \x22./a\x22".data)
    = [(false, "", "./a")] := by decide

example : scanImportFrom 60 false ("import from \x22./a\x22".data) = [] := by decide

example : scanImportFrom 60 false ("import type from \x22./a\x22".data)
    = [(false, "type", "./a")] := by decide

example : scanImportSide 60 false ("import \x22./c\x22;".data) = ["./c"] := by decide

example : scanImportSide 60 false ("import { A } from \x22./a\x22;".data) = [] := by decide

example : parse_imports "import { A } from \x22./a\x22;"
    = [ImportEdge.mk "./a" (parse_import_clause "{ A }") false] := by decide

example : parse_imports "// import { A } from \x22./a\x22;" = [] := by decide

example : parse_imports "/* import { A } from \x22./a\x22; */" = [] := by decide

example : scanExportNamed 60 false ("export \x7b Foo, Bar as Baz \x7d from \x22./m1\x22;".data)
    = [(false, "Foo, Bar as Baz", "./m1")] := by decide

example : scanExportNamed 60 false ("export type \x7b T \x7d from \x22./t\x22;".data)
    = [(true, "T", "./t")] := by decide

example : scanExportStar 60 false ("export * from \x22./star\x22;".data) = ["./star"] := by decide

example : scanExportStar 60 false ("export type * from \x22./t\x22;".data) = [] := by decide

example :
    parse_export_map
      "export \x7b Foo, Bar as Baz \x7d from \x22./m1\x22;\nexport type \x7b T \x7d from \x22./types\x22;\nexport * from \x22./star\x22;"
    = ExportMap.mk [("Foo", ["./m1"]), ("Baz", ["./m1"])] ["./star"] := by decide

example : parse_export_map "export const Foo = 1;" = ExportMap.mk [] [] := by decide

example : sortStrs ["./y", "./x"] = ["./x", "./y"] := by decide

/-!
Claim theorems.
-/

/-- C1, counterexample.  The claim prescribes that a braced named list with
no leading unbraced identifier parses to the set of source names, with
parse_import_clause applied to the braced pair list of A and B yielding the
set of A and B; in fact the comma inside the braces triggers the
default-plus-named pre-split and the result is the default singleton, which
does not contain A. -/
theorem c1_braced_pair_counterexample :
    parse_import_clause "{ A, B }" = some {"default"} ∧
      "A" ∉ (parse_import_clause "{ A, B }").getD ∅ :=
  ⟨by decide, by decide⟩

/-- C1, amended.  For a braced named list containing a comma the pre-split
misfires (the text before the first comma is taken for a default binding
and the rest has no opening brace), so the clause parses to the default
singleton.  For a single-token braced list the token rules hold, except
that a leading type qualifier is stripped and the bound name itself is
kept: a bare name contributes itself, Y-as-Z contributes the source name Y,
default-as-X contributes X, and a type-qualified name contributes the name.
Empty tokens are skipped where the token loop is reached (through the
default-plus-named form). -/
theorem c1_braced_list_amended :
    parse_import_clause "{ A, B }" = some {"default"} ∧
      parse_import_clause "{ A }" = some {"A"} ∧
      parse_import_clause "{ C as D }" = some {"C"} ∧
      parse_import_clause "{ default as X }" = some {"X"} ∧
      parse_import_clause "{ type B }" = some {"B"} ∧
      parse_import_clause "Foo, { A, , B }" = some {"default", "A", "B"} :=
  ⟨by decide, by decide, by decide, by decide, by decide,
    optFinsetEqSome (by decide) (by decide) (by decide)⟩

/-- C3, counterexample.  The claim says an import declaration inside a line
comment contributes no edge regardless of what precedes the two slashes on
the line; in fact the line-comment pattern requires line start or a
whitespace character before the slashes, so a comment introduced
immediately after a non-whitespace character is not stripped and its import
declaration does contribute an edge. -/
theorem c3_line_comment_counterexample :
    parse_imports "x// import \x7b A \x7d from \x22./a\x22" ≠ [] := by
  decide

/-- C3, amended.  Comment stripping removes block comments and those line
comments whose two slashes stand at line start or after whitespace,
preserving the other characters; an import declaration inside a block
comment or such a line comment contributes no edge, the same declaration
outside contributes an edge, and a declaration after a comment marker
directly preceded by a non-whitespace character also contributes an edge. -/
theorem c3_comment_stripping_amended :
    strip_comments "// hello\nimport \x7b A \x7d from \x22./a\x22; /* note */\nconst x = 1; // tail"
      = "\nimport \x7b A \x7d from \x22./a\x22; \nconst x = 1; " ∧
      parse_imports "// import \x7b A \x7d from \x22./a\x22;" = [] ∧
      parse_imports "/* import \x7b A \x7d from \x22./a\x22; */" = [] ∧
      parse_imports "import \x7b A \x7d from \x22./a\x22;"
        = [ImportEdge.mk "./a" (parse_import_clause "\x7b A \x7d") false] ∧
      parse_imports "x// import \x7b A \x7d from \x22./a\x22"
        = [ImportEdge.mk "./a" (parse_import_clause "\x7b A \x7d") false] :=
  ⟨by decide, by decide, by decide, by decide, by decide⟩

/-- C10.  parse_import_clause never returns the empty set: its result is
either absent or a nonempty set, so the truthiness test the closure engine
applies to a requested-bindings value agrees with the test for presence. -/
theorem c10_clause_never_empty (clause : String) :
    parse_import_clause clause ≠ some ∅ ∧
      requestedTruthy (parse_import_clause clause) = (parse_import_clause clause).isSome := by
  have htail : ∀ (imported : Finset String) (raw2 : List Char),
      parseClauseTail imported raw2 ≠ some ∅ := by
    intro imported raw2 h
    unfold parseClauseTail at h
    dsimp only at h
    repeat' split at h
    all_goals
      first
        | exact Option.noConfusion h
        | exact Finset.insert_ne_empty _ _ (Option.some.inj h)
        | (rename_i hemp; exact hemp (Option.some.inj h))
  have hne : parse_import_clause clause ≠ some ∅ := by
    intro h
    unfold parse_import_clause at h
    dsimp only at h
    repeat' split at h
    all_goals
      first
        | exact Option.noConfusion h
        | exact Finset.singleton_ne_empty _ (Option.some.inj h)
        | exact htail _ _ h
  refine ⟨hne, ?_⟩
  cases hv : parse_import_clause clause with
  | none => rfl
  | some s =>
    have hs : s ≠ ∅ := by
      intro hcon
      exact hne (hcon ▸ hv)
    simp [requestedTruthy, Finset.card_pos,
      Finset.nonempty_iff_ne_empty.mpr hs]

/-- Empty worklists return the visited set for any fuel. -/
theorem closureLoopNil (fs : FS) (root : FsPath) (maxFiles : Nat) :
    ∀ (fuel : Nat) (visited : Finset FsPath),
      closureLoop fs root maxFiles fuel visited [] = visited := by
  intro fuel visited
  cases fuel with
  | zero => rfl
  | succ n => rfl

/-- The visited set grows by at most one per visit and the loop stops once
its size passes the cap, so the result never exceeds the cap by more than
one. -/
theorem closureLoop_card_le (fs : FS) (root : FsPath) (maxFiles : Nat) :
    ∀ (fuel : Nat) (visited : Finset FsPath)
      (queue : List (FsPath × Option (Finset String))),
      visited.card ≤ maxFiles →
      (closureLoop fs root maxFiles fuel visited queue).card ≤ maxFiles + 1 := by
  intro fuel
  induction fuel with
  | zero =>
    intro visited queue h
    exact h.trans (Nat.le_succ _)
  | succ n ih =>
    intro visited queue h
    match queue with
    | [] => exact h.trans (Nat.le_succ _)
    | (path, requested) :: rest =>
      rw [closureLoop]
      by_cases hv : path ∈ visited
      · rw [if_pos hv]
        exact ih visited rest h
      · rw [if_neg hv]
        dsimp only
        by_cases hc : maxFiles < (insert path visited).card
        · rw [if_pos hc]
          rw [Finset.card_insert_of_not_mem hv]
          omega
        · rw [if_neg hc]
          exact ih _ _ (Nat.not_lt.mp hc)

/-!
Fuel sufficiency.  The fuel passed by dependency_closure can never run out:
every loop iteration pops one queue item, and items are pushed only when a
fresh file is visited, at most filePushBound of its text many, which
maxPush bounds across the tree.  The measure
queue length + (cap + 1 - visited size) * (maxPush + 1) strictly decreases,
so any fuel above the initial measure computes the same result as any
larger fuel: the value of dependency_closure is the value of the unbounded
worklist loop.
-/

/-- Ordered insertion grows a list by exactly one element. -/
theorem orderedIns_length (x : String) : ∀ l : List String,
    (orderedIns x l).length = l.length + 1 := by
  intro l
  induction l with
  | nil => rfl
  | cons y ys ih =>
    unfold orderedIns
    by_cases h : strLt x y = true
    · rw [if_pos h]; rfl
    · rw [if_neg h]
      simp [ih]

/-- Sorting preserves length. -/
theorem sortStrs_length : ∀ l : List String, (sortStrs l).length = l.length := by
  intro l
  induction l with
  | nil => rfl
  | cons y ys ih =>
    unfold sortStrs at ih ⊢
    simp [List.foldr_cons, orderedIns_length, ih]

/-- Set insertion grows a list by at most one element. -/
theorem pyInsert_length (x : String) (l : List String) :
    (pyInsert x l).length ≤ l.length + 1 := by
  unfold pyInsert
  by_cases h : l.contains x = true
  · rw [if_pos h]; omega
  · rw [if_neg h]; simp

/-- Set union grows the accumulator by at most the added list's length. -/
theorem pyUnionL_length : ∀ (l acc : List String),
    (pyUnionL acc l).length ≤ acc.length + l.length := by
  intro l
  induction l with
  | nil => intro acc; simp [pyUnionL]
  | cons x xs ih =>
    intro acc
    have h1 := ih (pyInsert x acc)
    have h2 := pyInsert_length x acc
    simp only [pyUnionL, List.foldl_cons, List.length_cons] at h1 ⊢
    omega

/-- Shifting the start value of the specifier-count fold. -/
theorem byNameSumShift : ∀ (m : List (String × List String)) (k : Nat),
    m.foldl (fun n kv => n + kv.2.length) k
      = k + m.foldl (fun n kv => n + kv.2.length) 0 := by
  intro m
  induction m with
  | nil => intro k; simp
  | cons kv rest ih =>
    intro k
    simp only [List.foldl_cons]
    rw [ih (k + kv.2.length), ih (0 + kv.2.length)]
    omega

/-- The union of all by-name specifier sets is no longer than their total
count. -/
theorem unionFoldLen : ∀ (m : List (String × List String)) (acc : List String),
    (m.foldl (fun a kv => pyUnionL a kv.2) acc).length
      ≤ acc.length + m.foldl (fun n kv => n + kv.2.length) 0 := by
  intro m
  induction m with
  | nil => intro acc; simp
  | cons kv rest ih =>
    intro acc
    have h1 := ih (pyUnionL acc kv.2)
    have h2 := pyUnionL_length kv.2 acc
    have h3 := byNameSumShift rest (0 + kv.2.length)
    simp only [List.foldl_cons] at h1 ⊢
    omega

/-- Same bound for the union restricted to the requested names. -/
theorem unionFoldRestrictedLen (requested : Finset String) :
    ∀ (m : List (String × List String)) (acc : List String),
      (m.foldl (fun a kv => if kv.1 ∈ requested then pyUnionL a kv.2 else a) acc).length
        ≤ acc.length + m.foldl (fun n kv => n + kv.2.length) 0 := by
  intro m
  induction m with
  | nil => intro acc; simp
  | cons kv rest ih =>
    intro acc
    simp only [List.foldl_cons]
    have h3 := byNameSumShift rest (0 + kv.2.length)
    by_cases h : kv.1 ∈ requested
    · rw [if_pos h]
      have h1 := ih (pyUnionL acc kv.2)
      have h2 := pyUnionL_length kv.2 acc
      omega
    · rw [if_neg h]
      have h1 := ih acc
      omega

/-- The follow set of one visit is bounded by the wildcard count plus the
total by-name specifier count of the file's export map. -/
theorem followSpecs_length (em : ExportMap) (requested : Finset String) :
    (followSpecs em requested).length
      ≤ em.stars.length + em.by_name.foldl (fun n kv => n + kv.2.length) 0 := by
  unfold followSpecs
  have hstars := pyUnionL_length em.stars []
  split
  · have h1 := unionFoldLen em.by_name (pyUnionL [] em.stars)
    simp only [List.length_nil] at hstars
    omega
  · dsimp only
    split
    · simp only [List.length_nil] at hstars
      omega
    · have h1 := unionFoldRestrictedLen requested em.by_name []
      simp only [List.length_nil] at h1
      omega

/-- A fold whose step grows the list by at most one element per input. -/
theorem foldlPushLen {α β : Type} (step : List β → α → List β)
    (h : ∀ (q : List β) (x : α), (step q x).length ≤ q.length + 1) :
    ∀ (l : List α) (q : List β), (l.foldl step q).length ≤ q.length + l.length := by
  intro l
  induction l with
  | nil => intro q; simp
  | cons x xs ih =>
    intro q
    have h1 := ih (step q x)
    have h2 := h q x
    simp only [List.foldl_cons, List.length_cons] at h1 ⊢
    omega

/-- The start value is below any max-fold over it. -/
theorem leFoldlMax (g : FsPath × String → Nat) :
    ∀ (l : List (FsPath × String)) (k : Nat),
      k ≤ l.foldl (fun m f => max m (g f)) k := by
  intro l
  induction l with
  | nil => intro k; simp
  | cons f rest ih =>
    intro k
    have h1 := ih (max k (g f))
    simp only [List.foldl_cons]
    omega

/-- Every member's value is below the max-fold. -/
theorem memLeFoldlMax (g : FsPath × String → Nat) :
    ∀ (l : List (FsPath × String)) (k : Nat) (f : FsPath × String),
      f ∈ l → g f ≤ l.foldl (fun m x => max m (g x)) k := by
  intro l
  induction l with
  | nil => intro k f hf; cases hf
  | cons x rest ih =>
    intro k f hf
    simp only [List.foldl_cons]
    cases hf with
    | head =>
      have h1 := leFoldlMax g rest (max k (g x))
      omega
    | tail _ hmem => exact ih (max k (g x)) f hmem

/-- The push bound of any read text is below the tree-wide bound. -/
theorem filePushBound_read_le (fs : FS) (p : FsPath) :
    filePushBound (read_text fs p) ≤ maxPush fs := by
  cases hf : fs.files.find? (fun f => f.1 == p) with
  | none =>
    have hrt : read_text fs p = "" := by
      unfold read_text
      rw [hf]
      rfl
    rw [hrt]
    have h0 : filePushBound "" = 0 := by decide
    rw [h0]
    exact Nat.zero_le _
  | some f =>
    have hrt : read_text fs p = f.2 := by
      unfold read_text
      rw [hf]
      rfl
    rw [hrt]
    unfold maxPush
    exact memLeFoldlMax (fun x => filePushBound x.2) fs.files 0 f
      (List.mem_of_find?_eq_some hf)

/-- One specifier push grows the worklist by at most one pair. -/
theorem pushResolved_length (fs : FS) (root path : FsPath)
    (q : List (FsPath × Option (Finset String))) (spec : String) :
    (pushResolved fs root path q spec).length ≤ q.length + 1 := by
  unfold pushResolved
  cases resolve_import fs root path spec with
  | none => simp
  | some r => simp

/-- One edge push grows the worklist by at most one pair. -/
theorem pushEdge_length (fs : FS) (root path : FsPath)
    (q : List (FsPath × Option (Finset String))) (e : ImportEdge) :
    (pushEdge fs root path q e).length ≤ q.length + 1 := by
  unfold pushEdge
  by_cases ht : e.type_only = true
  · rw [if_pos ht]; omega
  · rw [if_neg ht]
    cases resolve_import fs root path e.source with
    | none => simp
    | some r => simp

/-- Above the decreasing measure of the loop (pending pops plus a full
round of pushes for every visit the cap still admits), the fuel value does
not change the result: the loop reaches its fixpoint before the fuel can
run out. -/
theorem closureLoop_fuel_irrelevant (fs : FS) (root : FsPath) (maxFiles : Nat) :
    ∀ (fuel : Nat) (visited : Finset FsPath)
      (queue : List (FsPath × Option (Finset String))),
      queue.length + (maxFiles + 1 - visited.card) * (maxPush fs + 1) < fuel →
      closureLoop fs root maxFiles fuel visited queue
        = closureLoop fs root maxFiles (fuel + 1) visited queue := by
  intro fuel
  induction fuel with
  | zero => intro visited queue h; exact absurd h (Nat.not_lt_zero _)
  | succ n ih =>
    intro visited queue h
    match queue with
    | [] => rfl
    | (path, requested) :: rest =>
      rw [closureLoop, closureLoop]
      by_cases hv : path ∈ visited
      · rw [if_pos hv, if_pos hv]
        refine ih visited rest ?_
        simp only [List.length_cons] at h
        omega
      · rw [if_neg hv, if_neg hv]
        dsimp only
        by_cases hc : maxFiles < (insert path visited).card
        · rw [if_pos hc, if_pos hc]
        · rw [if_neg hc, if_neg hc]
          refine ih _ _ ?_
          have hcard : (insert path visited).card = visited.card + 1 :=
            Finset.card_insert_of_not_mem hv
          have hcap : visited.card + 1 ≤ maxFiles := by
            rw [hcard] at hc
            omega
          have hfollow := followSpecs_length
            (parse_export_map (read_text fs path)) (requested.getD ∅)
          have hsort := sortStrs_length
            (followSpecs (parse_export_map (read_text fs path)) (requested.getD ∅))
          have hpush := filePushBound_read_le fs path
          have hfpb : filePushBound (read_text fs path)
              = (parse_imports (read_text fs path)).length
                + (parse_export_map (read_text fs path)).stars.length
                + (parse_export_map (read_text fs path)).by_name.foldl
                    (fun n kv => n + kv.2.length) 0 := rfl
          have hq2 := foldlPushLen (pushEdge fs root path)
            (pushEdge_length fs root path)
            (parse_imports (read_text fs path))
          have hsub : maxFiles + 1 - visited.card
              = (maxFiles + 1 - (insert path visited).card) + 1 := by
            rw [hcard]
            omega
          rw [hsub] at h
          have hmul : ((maxFiles + 1 - (insert path visited).card) + 1) * (maxPush fs + 1)
              = (maxFiles + 1 - (insert path visited).card) * (maxPush fs + 1)
                + (maxPush fs + 1) :=
            Nat.succ_mul _ _
          rw [hmul] at h
          simp only [List.length_cons] at h
          by_cases hrq : requestedTruthy requested = true
          · rw [if_pos hrq]
            have hq1 := foldlPushLen (pushResolved fs root path)
              (pushResolved_length fs root path)
              (sortStrs (followSpecs (parse_export_map (read_text fs path))
                (requested.getD ∅))) rest
            have hq2' := hq2 ((sortStrs (followSpecs (parse_export_map (read_text fs path))
                (requested.getD ∅))).foldl (pushResolved fs root path) rest)
            omega
          · rw [if_neg hrq]
            have hq2' := hq2 rest
            omega

/-- The fuel passed by dependency_closure is above the initial measure, so
adding any amount of fuel leaves the result unchanged: the embedded
traversal computes the fixpoint of the worklist, exactly as the unbounded
source loop does. -/
theorem dependency_closure_fuel_stable (fs : FS) (root : FsPath)
    (entries : List FsPath) (maxFiles : Nat) :
    ∀ extra : Nat,
      closureLoop fs root maxFiles (closureFuel fs entries maxFiles + extra) ∅
          (entries.foldl (fun q ep => if isFile fs ep then (normSegs ep, none) :: q else q) [])
        = dependency_closure fs root entries maxFiles := by
  have hseed : (entries.foldl
      (fun q ep =>
        if isFile fs ep then ((normSegs ep, none) : FsPath × Option (Finset String)) :: q
        else q) []).length
      ≤ entries.length := by
    have h := foldlPushLen
      (fun q ep =>
        if isFile fs ep then ((normSegs ep, none) : FsPath × Option (Finset String)) :: q
        else q)
      (fun q x => by
        dsimp only
        by_cases hx : isFile fs x = true
        · rw [if_pos hx]; simp
        · rw [if_neg hx]; omega)
      entries []
    simpa using h
  have hmeas : (entries.foldl
      (fun q ep =>
        if isFile fs ep then ((normSegs ep, none) : FsPath × Option (Finset String)) :: q
        else q) []).length
      + (maxFiles + 1 - (∅ : Finset FsPath).card) * (maxPush fs + 1)
      < closureFuel fs entries maxFiles := by
    have hz : (∅ : Finset FsPath).card = 0 := rfl
    rw [hz, Nat.sub_zero]
    unfold closureFuel
    omega
  intro extra
  induction extra with
  | zero => rfl
  | succ k ih =>
    have hlt : (entries.foldl
        (fun q ep =>
          if isFile fs ep then ((normSegs ep, none) : FsPath × Option (Finset String)) :: q
          else q) []).length
        + (maxFiles + 1 - (∅ : Finset FsPath).card) * (maxPush fs + 1)
        < closureFuel fs entries maxFiles + k :=
      Nat.lt_of_lt_of_le hmeas (Nat.le_add_right _ _)
    rw [← Nat.add_assoc]
    rw [← closureLoop_fuel_irrelevant fs root maxFiles
      (closureFuel fs entries maxFiles + k) ∅ _ hlt]
    exact ih

/-- C2, counterexample.  The claim bounds the result by the cap itself and
prescribes size at most one for a cap of one against a three-file chain;
in fact the cap check runs after insertion, so the file that crosses the
cap is kept and the result has two files. -/
theorem c2_cap_counterexample :
    dependency_closure fsC2 ["r"] [["r", "a.ts"]] 1
        = {["r", "a.ts"], ["r", "b.ts"]} ∧
      1 < (dependency_closure fsC2 ["r"] [["r", "a.ts"]] 1).card :=
  ⟨finsetEqOfSubsetCard (by decide) (by decide), by decide⟩

/-- C2, amended.  The returned set contains at most the cap plus one files:
the traversal stops as soon as the visited count exceeds the cap, keeping
the crossing file; with a cap of one against a three-file chain the call
terminates with exactly the first two files of the chain. -/
theorem c2_cap_amended :
    (∀ (fs : FS) (root : FsPath) (entries : List FsPath) (maxFiles : Nat),
        (dependency_closure fs root entries maxFiles).card ≤ maxFiles + 1) ∧
      dependency_closure fsC2 ["r"] [["r", "a.ts"]] 1
        = {["r", "a.ts"], ["r", "b.ts"]} := by
  constructor
  · intro fs root entries maxFiles
    unfold dependency_closure
    exact closureLoop_card_le fs root maxFiles _ ∅ _ (by simp)
  · exact finsetEqOfSubsetCard (by decide) (by decide)

/-- C4.  Selective barrel following: an entry importing only Foo from the
barrel reaches the source of Foo but not the source of Bar; an entry whose
requested bindings contain the namespace marker, or the default binding,
reaches both. -/
theorem c4_selective_barrel :
    dependency_closure fsC4 ["r"] [["r", "e1.ts"]]
        = {["r", "e1.ts"], ["r", "barrel.ts"], ["r", "x.ts"]} ∧
      ["r", "y.ts"] ∉ dependency_closure fsC4 ["r"] [["r", "e1.ts"]] ∧
      dependency_closure fsC4 ["r"] [["r", "e2.ts"]]
        = {["r", "e2.ts"], ["r", "barrel.ts"], ["r", "x.ts"], ["r", "y.ts"]} ∧
      dependency_closure fsC4 ["r"] [["r", "e4.ts"]]
        = {["r", "e4.ts"], ["r", "barrel.ts"], ["r", "x.ts"], ["r", "y.ts"]} :=
  ⟨finsetEqOfSubsetCard (by decide) (by decide), by decide,
    finsetEqOfSubsetCard (by decide) (by decide),
    finsetEqOfSubsetCard (by decide) (by decide)⟩

/-- Membership in a modelled set after insertion: the inserted element and
all old elements are members. -/
theorem mem_pyInsert (x y : String) (a : List String) (h : x = y ∨ x ∈ a) :
    x ∈ pyInsert y a := by
  unfold pyInsert
  by_cases hc : a.contains y = true
  · rw [if_pos hc]
    cases h with
    | inl he => rw [he]; exact List.elem_iff.mp hc
    | inr hm => exact hm
  · rw [if_neg hc]
    cases h with
    | inl he => rw [he]; exact List.mem_append_right _ (List.mem_singleton.mpr rfl)
    | inr hm => exact List.mem_append_left _ hm

/-- Membership in a modelled set union. -/
theorem mem_pyUnionL : ∀ (l acc : List String) (x : String),
    x ∈ l ∨ x ∈ acc → x ∈ pyUnionL acc l := by
  intro l
  induction l with
  | nil =>
    intro acc x h
    cases h with
    | inl hl => cases hl
    | inr ha => exact ha
  | cons y ys ih =>
    intro acc x h
    show x ∈ pyUnionL (pyInsert y acc) ys
    cases h with
    | inl hl =>
      cases hl with
      | head => exact ih _ _ (Or.inr (mem_pyInsert y y acc (Or.inl rfl)))
      | tail _ hm => exact ih _ _ (Or.inl hm)
    | inr ha => exact ih _ _ (Or.inr (mem_pyInsert x y acc (Or.inr ha)))

/-- A restricted union over by-name entries none of whose keys is requested
adds nothing. -/
theorem foldRestrictedMiss (requested : Finset String) :
    ∀ (m : List (String × List String)) (acc : List String),
      (∀ kv ∈ m, kv.1 ∉ requested) →
      m.foldl (fun a kv => if kv.1 ∈ requested then pyUnionL a kv.2 else a) acc = acc := by
  intro m
  induction m with
  | nil => intro acc _; rfl
  | cons kv rest ih =>
    intro acc h
    have hk : kv.1 ∉ requested := h kv (List.mem_cons_self _ _)
    simp only [List.foldl_cons, if_neg hk]
    exact ih acc (fun kv2 h2 => h kv2 (List.mem_cons_of_mem _ h2))

/-- C7.  Wildcard fallback.  In general: against any export map, a request
that contains neither the namespace nor the default marker and misses every
by-name entry follows every wildcard specifier.  For the barrel holding
only a star re-export the follow set is exactly its wildcard target for
every request, and the closure from an entry importing a name the barrel
never names contains the wildcard target's resolved file. -/
theorem c7_wildcard_fallback :
    (∀ (em : ExportMap) (requested : Finset String),
        "*" ∉ requested → "default" ∉ requested →
        (∀ kv ∈ em.by_name, kv.1 ∉ requested) →
        ∀ s ∈ em.stars, s ∈ followSpecs em requested) ∧
      (∀ requested : Finset String,
        followSpecs (parse_export_map "export * from \x22./z\x22;") requested = ["./z"]) ∧
      dependency_closure fsC7 ["r"] [["r", "e3.ts"]]
        = {["r", "e3.ts"], ["r", "barrel2.ts"], ["r", "z.ts"]} := by
  refine ⟨?_, ?_, finsetEqOfSubsetCard (by decide) (by decide)⟩
  · intro em requested h1 h2 h3 s hs
    unfold followSpecs
    split
    · next hcc =>
      simp only [Bool.or_eq_true, decide_eq_true_eq] at hcc
      cases hcc with
      | inl h => exact absurd h h1
      | inr h => exact absurd h h2
    · dsimp only
      rw [foldRestrictedMiss requested em.by_name [] h3]
      have hne : em.stars.isEmpty = false := by
        cases hst : em.stars with
        | nil => rw [hst] at hs; cases hs
        | cons a l => rfl
      rw [if_pos (by rw [hne]; rfl)]
      exact mem_pyUnionL em.stars [] s (Or.inl hs)
  · intro requested
    have h : parse_export_map "export * from \x22./z\x22;" = ExportMap.mk [] ["./z"] := by
      decide
    rw [h]
    unfold followSpecs
    split
    · rfl
    · rfl

/-- C7, witness: the general fallback applied to the star-only barrel and a
request for a name it never names. -/
theorem c7_wildcard_fallback_witness :
    "*" ∉ ({"Something"} : Finset String) ∧
      "./z" ∈ followSpecs (parse_export_map "export * from \x22./z\x22;") {"Something"} :=
  ⟨by decide,
    c7_wildcard_fallback.1 (parse_export_map "export * from \x22./z\x22;") {"Something"}
      (by decide) (by decide) (by decide) "./z" (by decide)⟩

/-- Generic skip-fold lemma: a fold whose step ignores elements satisfying
a test equals the fold over the list with those elements filtered away. -/
theorem foldlSkipFilter {α β : Type} (g : β → α → β) (p : α → Bool) :
    ∀ (l : List α) (init : β),
      l.foldl (fun m t => if p t then m else g m t) init
        = (l.filter (fun t => !p t)).foldl (fun m t => if p t then m else g m t) init := by
  intro l
  induction l with
  | nil => intro init; rfl
  | cons t rest ih =>
    intro init
    by_cases hp : p t = true
    · simp [List.filter_cons, hp, ih]
    · simp only [Bool.not_eq_true] at hp
      simp [List.filter_cons, hp, ih]

/-- C8.  Type-only declarations contribute nothing to the closure: every
edge marked compile-time-only is a no-op for the worklist (the push step
returns the queue unchanged), so in the fixture the closure holds the entry
and the plain target but not the type-only target; the by-name map is built
from the scanned matches with every type-marked match filtered away, and a
file with only type-marked re-exports (named and star forms) yields an
empty export map. -/
theorem c8_type_only_exclusion :
    (∀ (fs : FS) (root path : FsPath) (q : List (FsPath × Option (Finset String)))
        (e : ImportEdge), e.type_only = true → pushEdge fs root path q e = q) ∧
      (dependency_closure fsC8 ["r"] [["r", "e.ts"]] = {["r", "e.ts"], ["r", "b.ts"]} ∧
      ["r", "a.ts"] ∉ dependency_closure fsC8 ["r"] [["r", "e.ts"]]) ∧
      (∀ ms : List (Bool × String × String),
        buildByName ms = buildByName (ms.filter (fun m => !m.1))) ∧
      parse_export_map
          "export type \x7b T \x7d from \x22./types\x22;\nexport type * from \x22./tstar\x22;"
        = ExportMap.mk [] [] := by
  refine ⟨?_, ⟨finsetEqOfSubsetCard (by decide) (by decide), by decide⟩, ?_, by decide⟩
  · intro fs root path q e h
    unfold pushEdge
    rw [if_pos h]
  · intro ms
    unfold buildByName
    exact foldlSkipFilter _ (fun m => m.1) ms []

/-- C8, witness: the skip law applied to the fixture's type-only edge. -/
theorem c8_type_only_exclusion_witness :
    (ImportEdge.mk "./a" (parse_import_clause "\x7b A \x7d") true).type_only = true ∧
      pushEdge fsC8 ["r"] ["r", "e.ts"] []
          (ImportEdge.mk "./a" (parse_import_clause "\x7b A \x7d") true) = [] :=
  ⟨by decide,
    c8_type_only_exclusion.1 fsC8 ["r"] ["r", "e.ts"] []
      (ImportEdge.mk "./a" (parse_import_clause "\x7b A \x7d") true) (by decide)⟩

/-- C9.  Cycle termination: from one member of a direct two-cycle the
traversal terminates (the embedded worklist, run with its stock fuel and
cap, computes a value) and returns exactly the two files; popping an
already-visited file skips it without pushing anything, so no file is
processed twice. -/
theorem c9_cycle_termination :
    dependency_closure fsC9 ["r"] [["r", "a.ts"]] = {["r", "a.ts"], ["r", "b.ts"]} ∧
      (∀ (fs : FS) (root : FsPath) (maxFiles fuel : Nat) (visited : Finset FsPath)
          (queue : List (FsPath × Option (Finset String)))
          (path : FsPath) (requested : Option (Finset String)),
        path ∈ visited →
        closureLoop fs root maxFiles (fuel + 1) visited ((path, requested) :: queue)
          = closureLoop fs root maxFiles fuel visited queue) := by
  refine ⟨finsetEqOfSubsetCard (by decide) (by decide), ?_⟩
  intro fs root maxFiles fuel visited queue path requested h
  rw [closureLoop]
  rw [if_pos h]

/-- C9, witness: the skip law applied to the second discovery of the entry
in the two-cycle. -/
theorem c9_cycle_termination_witness :
    (["r", "a.ts"] : FsPath) ∈ ({["r", "a.ts"], ["r", "b.ts"]} : Finset FsPath) ∧
      closureLoop fsC9 ["r"] 600 1 {["r", "a.ts"], ["r", "b.ts"]}
          [(["r", "a.ts"], some {"y"})]
        = closureLoop fsC9 ["r"] 600 0 {["r", "a.ts"], ["r", "b.ts"]} [] :=
  ⟨by decide,
    c9_cycle_termination.2 fsC9 ["r"] 600 0 {["r", "a.ts"], ["r", "b.ts"]} []
      ["r", "a.ts"] (some {"y"}) (by decide)⟩

/-- C5, counterexample.  The claim says a call with an entry outside the
declared root, or a root that does not exist, fails fast rather than
returning a result; in fact the call validates nothing: with a nonexistent
root and an entry outside it, it returns the reachable set of the entry,
and with a nonexistent entry it silently returns the empty set. -/
theorem c5_no_validation_counterexample :
    dependency_closure fsC5 ["missing", "root"] [["elsewhere", "e.ts"]]
        = {["elsewhere", "e.ts"]} ∧
      dependency_closure fsC5 ["missing", "root"] [["nowhere", "x.ts"]] = ∅ :=
  ⟨finsetEqOfSubsetCard (by decide) (by decide), by decide⟩

/-- C5, amended.  dependency_closure performs no validation of caller
input: an entry path that is not an existing file is silently dropped (for
any tree, root and cap, a single such entry yields the empty set), and a
nonexistent root with an entry outside it still returns the entry's
reachable set; no error is raised. -/
theorem c5_no_validation_amended :
    (∀ (fs : FS) (root ep : FsPath) (maxFiles : Nat),
        isFile fs ep = false → dependency_closure fs root [ep] maxFiles = ∅) ∧
      dependency_closure fsC5 ["missing", "root"] [["elsewhere", "e.ts"]]
        = {["elsewhere", "e.ts"]} := by
  constructor
  · intro fs root ep maxFiles h
    unfold dependency_closure
    simp only [List.foldl_cons, List.foldl_nil, h, Bool.false_eq_true, if_false]
    exact closureLoopNil fs root maxFiles _ ∅
  · exact finsetEqOfSubsetCard (by decide) (by decide)

/-- C5, witness for the amended universal part. -/
theorem c5_no_validation_witness :
    isFile fsC5 ["nowhere", "x.ts"] = false ∧
      dependency_closure fsC5 ["missing", "root"] [["nowhere", "x.ts"]] 600 = ∅ :=
  ⟨by decide,
    c5_no_validation_amended.1 fsC5 ["missing", "root"] ["nowhere", "x.ts"] 600 (by decide)⟩

/-- First match over an appended list: the left list is searched first. -/
theorem findAppend {α : Type} (p : α → Bool) :
    ∀ (l1 l2 : List α),
      (l1 ++ l2).find? p
        = match l1.find? p with
          | some x => some x
          | none => l2.find? p := by
  intro l1 l2
  induction l1 with
  | nil => rfl
  | cons a rest ih =>
    by_cases hp : p a = true
    · simp [List.find?_cons_of_pos, hp]
    · simp only [List.cons_append, List.find?_cons_of_neg _ hp, ih]

/-- C6.  Module resolution returns the first existing candidate of the
fixed ordered list (the literal path, extension probes in order, index
probes in order) exactly when the specifier carries a relative or alias
prefix, and is unresolved otherwise. -/
theorem c6_resolution_order (fs : FS) (root current_file : FsPath) (spec : String) :
    resolve_import fs root current_file spec
      = if eligibleSpec spec
          then (resolutionCandidates root current_file spec).find? (fun c => isFile fs c)
          else none := by
  unfold resolve_import eligibleSpec resolutionCandidates
  by_cases he : spec.data.isEmpty
  · have hnil : spec.data = [] := by
      cases h : spec.data with
      | nil => rfl
      | cons c cs => rw [h] at he; cases he
    rw [if_pos he, hnil]
    rfl
  · rw [if_neg he]
    by_cases hp : (("./".data).isPrefixOf spec.data || ("../".data).isPrefixOf spec.data
        || ("@/".data).isPrefixOf spec.data) = true
    · rw [if_neg (not_not_intro hp), if_pos hp]
      dsimp only
      by_cases hb : isFile fs (specBase root current_file spec) = true
      · rw [if_pos hb, List.find?_cons_of_pos _ hb]
      · rw [if_neg hb, List.find?_cons_of_neg _ hb, findAppend]
        cases h : List.find? (fun c => isFile fs c)
            (List.map (appendExt (specBase root current_file spec)) exts) <;>
          simp [h]
    · rw [if_pos hp, if_neg hp]

end DepScan
